import Mathlib

/-!
Verification development for the topic-message reassembly core
(`hiero_sdk_python/consensus/topic_message.py`).

The raw mirror-node record `ConsensusTopicResponse` is modelled from the
spec's input-record shape (§6), since the generated protobuf module is not
part of the verified source: fields `consensusTimestamp`, `message`,
`runningHash`, `sequenceNumber` and the optional `chunkInfo` with `number`,
`total` and optional `initialTransactionID`.  Protobuf submessage access on
an unset field yields the default instance, so the sort key
`r.chunkInfo.number` reads 0 when no chunk info is present; this is captured
by `chunkNumber`.  Bytes are lists of naturals; Python's `datetime` value
produced by `_to_datetime` is represented by the underlying
(seconds, nanos) pair, which determines it.
-/

/-- Protobuf `Timestamp`: seconds and nanoseconds. -/
structure Timestamp where
  seconds : Int
  nanos : Int
deriving DecidableEq, Repr

/-- Protobuf `TransactionID` carried in `chunkInfo.initialTransactionID`. -/
structure TransactionID where
  shardNum : Int
  realmNum : Int
  accountNum : Int
  transactionValidStart : Timestamp
deriving DecidableEq, Repr

/-- Protobuf `ConsensusMessageChunkInfo`: logical position `number` (1-based),
declared `total` chunk count, optional originating transaction id. -/
structure ChunkInfo where
  number : Int
  total : Int
  initialTransactionID : Option TransactionID
deriving DecidableEq, Repr

/-- Modelled from the spec: the mirror `ConsensusTopicResponse` record shape
of §6 (the generated protobuf module is outside the verified source). -/
structure ConsensusTopicResponse where
  consensusTimestamp : Timestamp
  message : List Nat
  runningHash : List Nat
  sequenceNumber : Nat
  chunkInfo : Option ChunkInfo
deriving DecidableEq, Repr

/-- Embedding of `_to_datetime`: the produced UTC datetime is represented by
the (seconds, nanos) pair that determines it. -/
def to_datetime (ts : Timestamp) : Timestamp := ts

/-- Sort key `r.chunkInfo.number`: protobuf returns the default instance
(number 0) when `chunkInfo` is unset. -/
def chunkNumber (r : ConsensusTopicResponse) : Int :=
  match r.chunkInfo with
  | some ci => ci.number
  | none => 0

/-- Mirrors the Python `TopicMessageChunk` value built from one response. -/
structure TopicMessageChunk where
  consensus_timestamp : Timestamp
  content_size : Nat
  running_hash : List Nat
  sequence_number : Nat
deriving DecidableEq, Repr

/-- The `TopicMessageChunk.__init__` constructor. -/
def TopicMessageChunk.ofResponse (r : ConsensusTopicResponse) : TopicMessageChunk :=
  { consensus_timestamp := to_datetime r.consensusTimestamp
    content_size := r.message.length
    running_hash := r.runningHash
    sequence_number := r.sequenceNumber }

/-- The reassembled `TopicMessage` value. -/
structure TopicMessage where
  consensus_timestamp : Timestamp
  contents : List Nat
  running_hash : List Nat
  sequence_number : Nat
  chunks : List TopicMessageChunk
  transaction_id : Option String
deriving DecidableEq, Repr

/-- The transaction-id string
`"{shardNum}.{realmNum}.{accountNum}-{validStartSeconds}.{validStartNanos}"`
built in `of_single` and `of_many`. -/
def txIdString (t : TransactionID) : String :=
  toString t.shardNum ++ "." ++ toString t.realmNum ++ "." ++ toString t.accountNum
    ++ "-" ++ toString t.transactionValidStart.seconds ++ "."
    ++ toString t.transactionValidStart.nanos

/-- Shared extraction: `some` of the formatted id when the response has
`chunkInfo` and the chunk info has `initialTransactionID`, else `none`.
This is the guarded formatting code duplicated in `of_single`/`of_many`. -/
def extractTxId (r : ConsensusTopicResponse) : Option String :=
  match r.chunkInfo with
  | some ci =>
    match ci.initialTransactionID with
    | some tx => some (txIdString tx)
    | none => none
  | none => none

/-- Whether a response carries an initial-transaction descriptor
(`HasField("chunkInfo") and chunkInfo.HasField("initialTransactionID")`). -/
def carriesTx (r : ConsensusTopicResponse) : Bool :=
  match r.chunkInfo with
  | some ci => ci.initialTransactionID.isSome
  | none => false

/-- Embedding of `TopicMessage.of_single`. -/
def TopicMessage.of_single (r : ConsensusTopicResponse) : TopicMessage :=
  { consensus_timestamp := (TopicMessageChunk.ofResponse r).consensus_timestamp
    contents := r.message
    running_hash := r.runningHash
    sequence_number := r.sequenceNumber
    chunks := [TopicMessageChunk.ofResponse r]
    transaction_id := extractTxId r }

/-- The comparison underlying `sorted(responses, key=lambda r: r.chunkInfo.number)`. -/
def respLE (a b : ConsensusTopicResponse) : Prop :=
  chunkNumber a ≤ chunkNumber b

instance : DecidableRel respLE :=
  fun a b => inferInstanceAs (Decidable (chunkNumber a ≤ chunkNumber b))

instance : IsTotal ConsensusTopicResponse respLE :=
  ⟨fun a b => Int.le_total (chunkNumber a) (chunkNumber b)⟩

instance : IsTrans ConsensusTopicResponse respLE :=
  ⟨fun _ _ _ h₁ h₂ => le_trans h₁ h₂⟩

/-- Python's `sorted` is a stable sort by the key; insertion sort with the
key comparison is stable and produces the same output. -/
def sortOf (rs : List ConsensusTopicResponse) : List ConsensusTopicResponse :=
  rs.insertionSort respLE

/-- The `total_size` accumulation of the first loop of `of_many`. -/
def sumLen : List ConsensusTopicResponse → Nat
  | [] => 0
  | r :: rest => r.message.length + sumLen rest

/-- The payload concatenation of the sorted responses. -/
def payloadsJoin : List ConsensusTopicResponse → List Nat
  | [] => []
  | r :: rest => r.message ++ payloadsJoin rest

/-- The transaction-id accumulation of the first loop of `of_many`:
keep the current value when already set, else try to extract. -/
def scanTx : List ConsensusTopicResponse → Option String → Option String
  | [], acc => acc
  | r :: rest, acc =>
    scanTx rest (match acc with
      | some s => some s
      | none => extractTxId r)

/-- Python slice assignment `contents[offset:end] = payload` with
`end = offset + len(payload)` on the preallocated buffer. -/
def writeSlice (buf : List Nat) (off : Nat) (p : List Nat) : List Nat :=
  buf.take off ++ p ++ buf.drop (off + p.length)

/-- The second loop of `of_many`: copy each sorted payload at its running
offset. -/
def fillLoop : List ConsensusTopicResponse → List Nat → Nat → List Nat
  | [], buf, _ => buf
  | r :: rest, buf, off =>
    fillLoop rest (writeSlice buf off r.message) (off + r.message.length)

/-- The (offset, end) index pair of each slice write performed by the
second loop of `of_many`, in loop order. -/
def writeBounds : List ConsensusTopicResponse → Nat → List (Nat × Nat)
  | [], _ => []
  | r :: rest, off =>
    (off, off + r.message.length) :: writeBounds rest (off + r.message.length)

/-- Embedding of `TopicMessage.of_many`.  Returns `none` exactly when the
Python code would raise `IndexError` at `sorted_responses[-1]`, i.e. on an
empty input list. -/
def TopicMessage.of_many (responses : List ConsensusTopicResponse) :
    Option TopicMessage :=
  let sorted_responses := sortOf responses
  let chunks := sorted_responses.map TopicMessageChunk.ofResponse
  let total_size := sumLen sorted_responses
  let transaction_id := scanTx sorted_responses none
  let contents := fillLoop sorted_responses (List.replicate total_size 0) 0
  match sorted_responses.getLast? with
  | none => none
  | some last_r =>
    some
      { consensus_timestamp := to_datetime last_r.consensusTimestamp
        contents := contents
        running_hash := last_r.runningHash
        sequence_number := last_r.sequenceNumber
        chunks := chunks
        transaction_id := transaction_id }

/-- The polymorphic `response_or_responses` argument of `from_proto`. -/
inductive ResponseOrResponses where
  | single (r : ConsensusTopicResponse)
  | many (rs : List ConsensusTopicResponse)

/-- Error text of the ambiguous-shape rejection. -/
def ambiguousShapeMsg : String :=
  "Cannot handle multi-chunk in a single response. Pass all chunk responses in a list."

/-- Error text of the empty-input rejection. -/
def emptyInputMsg : String :=
  "Empty response list provided to from_proto()."

/-- Whether a single record declares itself part of a multi-chunk message:
`response.HasField("chunkInfo") and response.chunkInfo.total > 1`. -/
def declaresMultiChunk (r : ConsensusTopicResponse) : Bool :=
  match r.chunkInfo with
  | some ci => decide (ci.total > 1)
  | none => false

/-- Embedding of `TopicMessage.from_proto`. -/
def TopicMessage.from_proto (x : ResponseOrResponses) (chunking_enabled : Bool) :
    Except String TopicMessage :=
  match x with
  | .single response =>
    if chunking_enabled && declaresMultiChunk response then
      .error ambiguousShapeMsg
    else
      .ok (TopicMessage.of_single response)
  | .many rs =>
    match rs with
    | [] => .error emptyInputMsg
    | r :: rest =>
      if !chunking_enabled && rest.isEmpty then
        .ok (TopicMessage.of_single r)
      else
        match TopicMessage.of_many (r :: rest) with
        | some m => .ok m
        | none => .error "IndexError: list index out of range"

/-- Sum of `content_size` over a chunk sequence. -/
def sumContentSize : List TopicMessageChunk → Nat
  | [] => 0
  | c :: rest => c.content_size + sumContentSize rest

/-- One UTF-8 continuation byte. -/
def isCont (b : Nat) : Bool := 0x80 ≤ b && b ≤ 0xBF

/-- The U+FFFD replacement character substituted for undecodable bytes. -/
def replacementChar : Nat := 0xFFFD

/-- Valid first continuation ranges of a three-byte lead (excluding overlong
encodings and surrogates, as CPython's UTF-8 decoder does). -/
def cont3first (b b2 : Nat) : Bool :=
  if b == 0xE0 then 0xA0 ≤ b2 && b2 ≤ 0xBF
  else if b == 0xED then 0x80 ≤ b2 && b2 ≤ 0x9F
  else isCont b2

/-- Valid first continuation ranges of a four-byte lead (excluding overlong
encodings and code points above U+10FFFF). -/
def cont4first (b b2 : Nat) : Bool :=
  if b == 0xF0 then 0x90 ≤ b2 && b2 ≤ 0xBF
  else if b == 0xF4 then 0x80 ≤ b2 && b2 ≤ 0x8F
  else isCont b2

/-- Embedding of `contents.decode("utf-8", errors="replace")`: decode UTF-8,
substituting one U+FFFD per maximal ill-formed subsequence instead of
failing, returning the decoded code points. -/
def utf8DecodeReplace : List Nat → List Nat
  | [] => []
  | b :: rest =>
    if b ≤ 0x7F then
      b :: utf8DecodeReplace rest
    else if 0xC2 ≤ b && b ≤ 0xDF then
      match rest with
      | [] => [replacementChar]
      | b2 :: rest2 =>
        if isCont b2 then
          ((b - 0xC0) * 0x40 + (b2 - 0x80)) :: utf8DecodeReplace rest2
        else
          replacementChar :: utf8DecodeReplace (b2 :: rest2)
    else if 0xE0 ≤ b && b ≤ 0xEF then
      match rest with
      | [] => [replacementChar]
      | b2 :: rest2 =>
        if cont3first b b2 then
          match rest2 with
          | [] => [replacementChar]
          | b3 :: rest3 =>
            if isCont b3 then
              ((b - 0xE0) * 0x1000 + (b2 - 0x80) * 0x40 + (b3 - 0x80))
                :: utf8DecodeReplace rest3
            else
              replacementChar :: utf8DecodeReplace (b3 :: rest3)
        else
          replacementChar :: utf8DecodeReplace (b2 :: rest2)
    else if 0xF0 ≤ b && b ≤ 0xF4 then
      match rest with
      | [] => [replacementChar]
      | b2 :: rest2 =>
        if cont4first b b2 then
          match rest2 with
          | [] => [replacementChar]
          | b3 :: rest3 =>
            if isCont b3 then
              match rest3 with
              | [] => [replacementChar]
              | b4 :: rest4 =>
                if isCont b4 then
                  ((b - 0xF0) * 0x40000 + (b2 - 0x80) * 0x1000
                      + (b3 - 0x80) * 0x40 + (b4 - 0x80))
                    :: utf8DecodeReplace rest4
                else
                  replacementChar :: utf8DecodeReplace (b4 :: rest4)
            else
              replacementChar :: utf8DecodeReplace (b3 :: rest3)
        else
          replacementChar :: utf8DecodeReplace (b2 :: rest2)
    else
      replacementChar :: utf8DecodeReplace rest

/-- A single-quote character, written via its code to keep string literals
plain. -/
def squote : String := String.singleton (Char.ofNat 39)

/-- Rendering of the timestamp hole of the debug string.  The claimed shape
leaves the timestamp rendering unconstrained, so it is rendered from the
(seconds, nanos) pair that defines the datetime value. -/
def timestampRender (t : Timestamp) : String :=
  toString t.seconds ++ "." ++ toString t.nanos

/-- Embedding of `TopicMessage.__str__`. -/
def TopicMessage.str (m : TopicMessage) : String :=
  let contents_str : List Char := (utf8DecodeReplace m.contents).map Char.ofNat
  "TopicMessage(consensus_timestamp=" ++ timestampRender m.consensus_timestamp
    ++ ", sequence_number=" ++ toString m.sequence_number
    ++ ", contents=" ++ squote ++ String.mk (contents_str.take 40)
    ++ (if contents_str.length > 40 then "..." else "") ++ squote
    ++ ", chunk_count=" ++ toString m.chunks.length
    ++ ", transaction_id=" ++ (match m.transaction_id with
        | some s => s
        | none => "None") ++ ")"

/-- Demo chunk: position index 2, payload b"CD". -/
def demoA : ConsensusTopicResponse :=
  { consensusTimestamp := { seconds := 20, nanos := 0 }
    message := [67, 68]
    runningHash := [2]
    sequenceNumber := 2
    chunkInfo := some { number := 2, total := 3, initialTransactionID := none } }

/-- Demo chunk: position index 1, payload b"AB". -/
def demoB : ConsensusTopicResponse :=
  { consensusTimestamp := { seconds := 10, nanos := 0 }
    message := [65, 66]
    runningHash := [1]
    sequenceNumber := 1
    chunkInfo := some { number := 1, total := 3, initialTransactionID := none } }

/-- Demo chunk: position index 3, payload b"EF". -/
def demoC : ConsensusTopicResponse :=
  { consensusTimestamp := { seconds := 30, nanos := 0 }
    message := [69, 70]
    runningHash := [3]
    sequenceNumber := 3
    chunkInfo := some { number := 3, total := 3, initialTransactionID := none } }

/-- Demo single-chunk record declaring total 1, carrying a transaction id. -/
def demoSingle : ConsensusTopicResponse :=
  { consensusTimestamp := { seconds := 5, nanos := 0 }
    message := [72, 73]
    runningHash := [9]
    sequenceNumber := 7
    chunkInfo := some
      { number := 1
        total := 1
        initialTransactionID := some
          { shardNum := 0
            realmNum := 0
            accountNum := 5
            transactionValidStart := { seconds := 100, nanos := 200 } } } }

/-- Demo first chunk of a pair, carrying no transaction id. -/
def demoT1 : ConsensusTopicResponse :=
  { consensusTimestamp := { seconds := 10, nanos := 0 }
    message := [72]
    runningHash := [1]
    sequenceNumber := 1
    chunkInfo := some { number := 1, total := 2, initialTransactionID := none } }

/-- Demo second chunk of a pair, the only one carrying a transaction id
(shard 0, realm 0, account 5, valid start (100, 200)). -/
def demoT2 : ConsensusTopicResponse :=
  { consensusTimestamp := { seconds := 20, nanos := 0 }
    message := [73]
    runningHash := [2]
    sequenceNumber := 2
    chunkInfo := some
      { number := 2
        total := 2
        initialTransactionID := some
          { shardNum := 0
            realmNum := 0
            accountNum := 5
            transactionValidStart := { seconds := 100, nanos := 200 } } } }

/-- Demo tied chunk arriving first: position index 1. -/
def demoTieA : ConsensusTopicResponse :=
  { consensusTimestamp := { seconds := 10, nanos := 0 }
    message := [65]
    runningHash := [1]
    sequenceNumber := 1
    chunkInfo := some { number := 1, total := 2, initialTransactionID := none } }

/-- Demo tied chunk arriving second: also position index 1, different
metadata. -/
def demoTieB : ConsensusTopicResponse :=
  { consensusTimestamp := { seconds := 20, nanos := 0 }
    message := [66]
    runningHash := [2]
    sequenceNumber := 2
    chunkInfo := some { number := 1, total := 2, initialTransactionID := none } }

/-- Demo message with contents longer than 40 bytes ending in an undecodable
byte. -/
def demoStrMsg : TopicMessage :=
  { consensus_timestamp := { seconds := 0, nanos := 0 }
    contents := List.replicate 41 65 ++ [200]
    running_hash := [1]
    sequence_number := 4
    chunks := [{ consensus_timestamp := { seconds := 0, nanos := 0 }
                 content_size := 42
                 running_hash := [1]
                 sequence_number := 4 }]
    transaction_id := none }

/-! Basic facts about the stable sort. -/

lemma sortOf_perm (rs : List ConsensusTopicResponse) : List.Perm (sortOf rs) rs :=
  List.perm_insertionSort respLE rs

lemma sortOf_sorted (rs : List ConsensusTopicResponse) : List.Sorted respLE (sortOf rs) :=
  List.sorted_insertionSort respLE rs

lemma sortOf_eq_nil_iff {rs : List ConsensusTopicResponse} : sortOf rs = [] ↔ rs = [] := by
  constructor
  · intro h
    exact (h ▸ sortOf_perm rs).symm.eq_nil
  · intro h
    subst h
    rfl

lemma sortOf_cons (a : ConsensusTopicResponse) (t : List ConsensusTopicResponse) :
    sortOf (a :: t) = (sortOf t).orderedInsert respLE a := rfl

/-! The fill loop writes the sorted payload concatenation. -/

lemma writeSlice_length {buf p : List Nat} {off : Nat} (h : off + p.length ≤ buf.length) :
    (writeSlice buf off p).length = buf.length := by
  simp only [writeSlice, List.length_append, List.length_take, List.length_drop]
  omega

lemma writeSlice_take {buf p : List Nat} {off : Nat} (h : off + p.length ≤ buf.length) :
    (writeSlice buf off p).take (off + p.length) = buf.take off ++ p := by
  have hl : (buf.take off).length = off := by
    rw [List.length_take]; omega
  have h1 : (buf.take off).length ≤ off + p.length := by omega
  have h2 : (p ++ buf.drop (off + p.length)).take p.length = p := List.take_left p _
  calc (writeSlice buf off p).take (off + p.length)
      = ((buf.take off) ++ (p ++ buf.drop (off + p.length))).take (off + p.length) := by
        simp [writeSlice, List.append_assoc]
    _ = buf.take off ++
          (p ++ buf.drop (off + p.length)).take (off + p.length - (buf.take off).length) := by
        rw [List.take_append_eq_append_take, List.take_of_length_le h1]
    _ = buf.take off ++ p := by
        rw [hl, Nat.add_sub_cancel_left, h2]

lemma writeSlice_drop {buf p : List Nat} {off : Nat} (h : off + p.length ≤ buf.length) (k : Nat) :
    (writeSlice buf off p).drop (off + p.length + k) = buf.drop (off + p.length + k) := by
  have hl : (buf.take off).length = off := by
    rw [List.length_take]; omega
  have h1 : (buf.take off).length ≤ off + p.length + k := by omega
  calc (writeSlice buf off p).drop (off + p.length + k)
      = ((buf.take off) ++ (p ++ buf.drop (off + p.length))).drop (off + p.length + k) := by
        simp [writeSlice, List.append_assoc]
    _ = (p ++ buf.drop (off + p.length)).drop (off + p.length + k - (buf.take off).length) := by
        rw [List.drop_append_eq_append_drop, List.drop_eq_nil_of_le h1, List.nil_append]
    _ = (p ++ buf.drop (off + p.length)).drop (p.length + k) := by
        rw [hl]
        congr 1
        omega
    _ = (buf.drop (off + p.length)).drop (p.length + k - p.length) := by
        rw [List.drop_append_eq_append_drop, List.drop_eq_nil_of_le (by omega), List.nil_append]
    _ = buf.drop (off + p.length + k) := by
        rw [List.drop_drop]
        congr 1
        omega

lemma fillLoop_spec (rs : List ConsensusTopicResponse) :
    ∀ (buf : List Nat) (off : Nat), off + sumLen rs ≤ buf.length →
      fillLoop rs buf off = buf.take off ++ payloadsJoin rs ++ buf.drop (off + sumLen rs) := by
  induction rs with
  | nil =>
    intro buf off h
    simp [fillLoop, payloadsJoin, sumLen]
  | cons r rest ih =>
    intro buf off h
    simp only [sumLen] at h
    have h₁ : off + r.message.length ≤ buf.length := by omega
    have h₂ : off + r.message.length + sumLen rest ≤ (writeSlice buf off r.message).length := by
      rw [writeSlice_length h₁]; omega
    simp only [fillLoop, payloadsJoin, sumLen]
    rw [ih _ _ h₂, writeSlice_take h₁, writeSlice_drop h₁, Nat.add_assoc]
    simp [List.append_assoc]

lemma payloadsJoin_length (rs : List ConsensusTopicResponse) :
    (payloadsJoin rs).length = sumLen rs := by
  induction rs with
  | nil => rfl
  | cons r rest ih => simp [payloadsJoin, sumLen, ih]

lemma fillLoop_full (rs : List ConsensusTopicResponse) :
    fillLoop rs (List.replicate (sumLen rs) 0) 0 = payloadsJoin rs := by
  have h := fillLoop_spec rs (List.replicate (sumLen rs) 0) 0 (by simp)
  simpa using h

/-! Exposing the result of `of_many` once the last sorted element is known. -/

lemma of_many_eq {rs : List ConsensusTopicResponse} {last_r : ConsensusTopicResponse}
    (h : (sortOf rs).getLast? = some last_r) :
    TopicMessage.of_many rs = some
      { consensus_timestamp := to_datetime last_r.consensusTimestamp
        contents := payloadsJoin (sortOf rs)
        running_hash := last_r.runningHash
        sequence_number := last_r.sequenceNumber
        chunks := (sortOf rs).map TopicMessageChunk.ofResponse
        transaction_id := scanTx (sortOf rs) none } := by
  simp only [TopicMessage.of_many, h, fillLoop_full]

lemma of_many_nil : TopicMessage.of_many [] = none := rfl

lemma of_many_isSome {rs : List ConsensusTopicResponse} (h : rs ≠ []) :
    ∃ last_r, (sortOf rs).getLast? = some last_r := by
  have hne : sortOf rs ≠ [] := fun hc => h (sortOf_eq_nil_iff.mp hc)
  cases hl : (sortOf rs).getLast? with
  | none => exact absurd (List.getLast?_eq_none_iff.mp hl) hne
  | some x => exact ⟨x, rfl⟩

/-! Transaction-id extraction facts. -/

lemma extractTxId_eq_none {r : ConsensusTopicResponse} (h : carriesTx r = false) :
    extractTxId r = none := by
  cases hc : r.chunkInfo with
  | none => simp [extractTxId, hc]
  | some ci =>
    cases hi : ci.initialTransactionID with
    | none => simp [extractTxId, hc, hi]
    | some tx =>
      exfalso
      simp [carriesTx, hc, hi] at h

lemma extractTxId_isSome {r : ConsensusTopicResponse} (h : carriesTx r = true) :
    ∃ s, extractTxId r = some s := by
  cases hc : r.chunkInfo with
  | none =>
    exfalso
    simp [carriesTx, hc] at h
  | some ci =>
    cases hi : ci.initialTransactionID with
    | none =>
      exfalso
      simp [carriesTx, hc, hi] at h
    | some tx =>
      exact ⟨txIdString tx, by simp [extractTxId, hc, hi]⟩

lemma scanTx_some (l : List ConsensusTopicResponse) (s : String) :
    scanTx l (some s) = some s := by
  induction l with
  | nil => rfl
  | cons a t ih => simp [scanTx, ih]

lemma scanTx_cons_none (a : ConsensusTopicResponse) (t : List ConsensusTopicResponse) :
    scanTx (a :: t) none = scanTx t (extractTxId a) := rfl

lemma scanTx_eq_none (l : List ConsensusTopicResponse)
    (h : ∀ x ∈ l, carriesTx x = false) : scanTx l none = none := by
  induction l with
  | nil => rfl
  | cons a t ih =>
    rw [scanTx_cons_none, extractTxId_eq_none (h a (List.mem_cons_self a t))]
    exact ih (fun x hx => h x (List.mem_cons_of_mem _ hx))

lemma scanTx_first : ∀ (s : List ConsensusTopicResponse), List.Sorted respLE s →
    ∀ c ∈ s, carriesTx c = true →
    (∀ x ∈ s, carriesTx x = true → x = c ∨ chunkNumber c < chunkNumber x) →
    scanTx s none = extractTxId c := by
  intro s
  induction s with
  | nil =>
    intro _ c hc
    exact absurd hc (List.not_mem_nil c)
  | cons a t ih =>
    intro hs c hc hcar hmin
    by_cases hac : a = c
    · subst hac
      obtain ⟨s₀, hs₀⟩ := extractTxId_isSome hcar
      rw [scanTx_cons_none, hs₀, scanTx_some]
    · have hct : c ∈ t := by
        rcases List.mem_cons.mp hc with h1 | h1
        · exact absurd h1.symm hac
        · exact h1
      have hanot : carriesTx a = false := by
        by_contra hT
        have hT' : carriesTx a = true := by
          simpa using hT
        rcases hmin a (List.mem_cons_self a t) hT' with h1 | h2
        · exact hac h1
        · have h3 := (List.sorted_cons.mp hs).1 c hct
          unfold respLE at h3
          omega
      rw [scanTx_cons_none, extractTxId_eq_none hanot]
      exact ih (List.sorted_cons.mp hs).2 c hct hcar
        (fun x hx hcx => hmin x (List.mem_cons_of_mem _ hx) hcx)

/-! The last element of the sorted list. -/

lemma sorted_getLast?_eq : ∀ (s : List ConsensusTopicResponse), List.Sorted respLE s →
    ∀ c ∈ s, (∀ x ∈ s, x = c ∨ chunkNumber x < chunkNumber c) → s.getLast? = some c := by
  intro s
  induction s with
  | nil =>
    intro _ c hc
    exact absurd hc (List.not_mem_nil c)
  | cons a t ih =>
    intro hs c hc hmax
    cases t with
    | nil =>
      have hca : c = a := by simpa using hc
      simp [hca]
    | cons b t' =>
      rw [List.getLast?_cons_cons]
      have hsc := List.sorted_cons.mp hs
      have hct : c ∈ b :: t' := by
        rcases List.mem_cons.mp hc with h1 | h1
        · subst h1
          rcases hmax b (by simp) with hb | hb
          · exact hb ▸ List.mem_cons_self b t'
          · have h2 := hsc.1 b (List.mem_cons_self b t')
            unfold respLE at h2
            omega
        · exact h1
      exact ih hsc.2 c hct (fun x hx => hmax x (List.mem_cons_of_mem _ hx))

lemma sorted_getLast?_filter (K : Int) : ∀ (s : List ConsensusTopicResponse),
    List.Sorted respLE s → (∀ x ∈ s, chunkNumber x ≤ K) →
    ∀ y ∈ s, chunkNumber y = K →
    s.getLast? = (s.filter (fun r => chunkNumber r == K)).getLast? := by
  intro s
  induction s with
  | nil =>
    intro _ _ y hy
    exact absurd hy (List.not_mem_nil y)
  | cons a t ih =>
    intro hs hbound y hy hyK
    cases t with
    | nil =>
      have hya : y = a := by simpa using hy
      subst hya
      simp [List.filter_cons, hyK]
    | cons b t' =>
      have hsc := List.sorted_cons.mp hs
      by_cases haK : chunkNumber a = K
      · have hall : ∀ x ∈ a :: b :: t', (fun r => chunkNumber r == K) x = true := by
          intro x hx
          rcases List.mem_cons.mp hx with h1 | h1
          · simp [h1, haK]
          · have h2 := hsc.1 x h1
            have h3 := hbound x (List.mem_cons_of_mem _ h1)
            unfold respLE at h2
            simp only [beq_iff_eq]
            omega
        rw [List.filter_eq_self.mpr hall]
      · have hyt : y ∈ b :: t' := by
          rcases List.mem_cons.mp hy with h1 | h1
          · exact absurd (h1 ▸ hyK) haK
          · exact h1
        have ha' : (chunkNumber a == K) = false := by
          simpa using haK
        rw [List.getLast?_cons_cons, List.filter_cons, ha']
        simp only [Bool.false_eq_true, if_false]
        exact ih hsc.2 (fun x hx => hbound x (List.mem_cons_of_mem _ hx)) y hyt hyK

/-! Stability of the sort: filtering at a fixed key commutes with sorting. -/

lemma filter_orderedInsert_pos (k : Int) (a : ConsensusTopicResponse)
    (ha : chunkNumber a = k) :
    ∀ l : List ConsensusTopicResponse,
      ((l.orderedInsert respLE a).filter (fun r => chunkNumber r == k)) =
        a :: l.filter (fun r => chunkNumber r == k) := by
  intro l
  induction l with
  | nil => simp [List.orderedInsert, List.filter_cons, ha]
  | cons b t ih =>
    by_cases h : respLE a b
    · simp only [List.orderedInsert, if_pos h]
      simp [List.filter_cons, ha]
    · simp only [List.orderedInsert, if_neg h]
      have hb : (chunkNumber b == k) = false := by
        unfold respLE at h
        simp only [beq_eq_false_iff_ne, ne_eq]
        omega
      simp [List.filter_cons, hb, ih]

lemma filter_orderedInsert_neg (k : Int) (a : ConsensusTopicResponse)
    (ha : chunkNumber a ≠ k) :
    ∀ l : List ConsensusTopicResponse,
      ((l.orderedInsert respLE a).filter (fun r => chunkNumber r == k)) =
        l.filter (fun r => chunkNumber r == k) := by
  intro l
  have ha' : (chunkNumber a == k) = false := by simpa using ha
  induction l with
  | nil => simp [List.orderedInsert, List.filter_cons, ha']
  | cons b t ih =>
    by_cases h : respLE a b
    · simp only [List.orderedInsert, if_pos h]
      simp [List.filter_cons, ha']
    · simp only [List.orderedInsert, if_neg h]
      simp [List.filter_cons, ih]

lemma sortOf_filter_stable (l : List ConsensusTopicResponse) (k : Int) :
    (sortOf l).filter (fun r => chunkNumber r == k) =
      l.filter (fun r => chunkNumber r == k) := by
  induction l with
  | nil => rfl
  | cons a t ih =>
    rw [sortOf_cons]
    by_cases ha : chunkNumber a = k
    · rw [filter_orderedInsert_pos k a ha (sortOf t), ih]
      simp [List.filter_cons, ha]
    · rw [filter_orderedInsert_neg k a ha (sortOf t), ih]
      simp [List.filter_cons, show (chunkNumber a == k) = false by simpa using ha]

/-! With pairwise-distinct keys the sorted sequence is uniquely determined,
so sorting is invariant under permutation of the input. -/

lemma sortOf_sorted_strict (l : List ConsensusTopicResponse)
    (hnd : (l.map chunkNumber).Nodup) :
    List.Pairwise (fun a b : ConsensusTopicResponse => chunkNumber a < chunkNumber b)
      (sortOf l) := by
  have h₁ : List.Pairwise respLE (sortOf l) := sortOf_sorted l
  have h₂ : ((sortOf l).map chunkNumber).Nodup :=
    (((sortOf_perm l).map chunkNumber).nodup_iff).mpr hnd
  have h₃ : List.Pairwise
      (fun a b : ConsensusTopicResponse => chunkNumber a ≠ chunkNumber b) (sortOf l) :=
    List.pairwise_map.mp h₂
  exact (h₁.and h₃).imp (fun hab => lt_of_le_of_ne hab.1 hab.2)

lemma sortOf_eq_of_perm (l₁ l₂ : List ConsensusTopicResponse)
    (hperm : List.Perm l₁ l₂) (hnd : (l₁.map chunkNumber).Nodup) :
    sortOf l₁ = sortOf l₂ := by
  haveI : IsAntisymm ConsensusTopicResponse
      (fun a b : ConsensusTopicResponse => chunkNumber a < chunkNumber b) :=
    ⟨fun a b h₁ h₂ => absurd (h₁.trans h₂) (lt_irrefl _)⟩
  have hp : List.Perm (sortOf l₁) (sortOf l₂) :=
    (sortOf_perm l₁).trans (hperm.trans (sortOf_perm l₂).symm)
  have hnd₂ : (l₂.map chunkNumber).Nodup := ((hperm.map chunkNumber).nodup_iff).mp hnd
  exact List.eq_of_perm_of_sorted hp (sortOf_sorted_strict l₁ hnd)
    (sortOf_sorted_strict l₂ hnd₂)

/-! Remaining shared lemmas. -/

lemma sumContentSize_map (rs : List ConsensusTopicResponse) :
    sumContentSize (rs.map TopicMessageChunk.ofResponse) = sumLen rs := by
  induction rs with
  | nil => rfl
  | cons r rest ih =>
    simp [sumContentSize, sumLen, TopicMessageChunk.ofResponse, ih]

lemma of_many_singleton (r : ConsensusTopicResponse) :
    TopicMessage.of_many [r] = some (TopicMessage.of_single r) := by
  have hs : sortOf [r] = [r] := rfl
  have hlast : (sortOf [r]).getLast? = some r := by rw [hs]; rfl
  rw [of_many_eq hlast]
  simp [hs, TopicMessage.of_single, payloadsJoin, scanTx, TopicMessageChunk.ofResponse]

lemma writeBounds_le : ∀ (l : List ConsensusTopicResponse) (off : Nat),
    ∀ pe ∈ writeBounds l off, pe.2 ≤ off + sumLen l := by
  intro l
  induction l with
  | nil =>
    intro off pe hpe
    exact absurd hpe (List.not_mem_nil pe)
  | cons r t ih =>
    intro off pe hpe
    simp only [writeBounds] at hpe
    rcases List.mem_cons.mp hpe with h1 | h1
    · subst h1
      simp only [sumLen]
      omega
    · have h2 := ih (off + r.message.length) pe h1
      simp only [sumLen]
      omega

lemma utf8DecodeReplace_ne_nil (bs : List Nat) (h : bs ≠ []) :
    utf8DecodeReplace bs ≠ [] := by
  cases bs with
  | nil => exact absurd rfl h
  | cons b rest =>
    unfold utf8DecodeReplace
    repeat' split
    all_goals simp

/-- C7: for every empty collection passed to `from_proto`, and for either
value of `chunking_enabled`, the call is rejected with the empty-input error
and no message is produced. -/
theorem from_proto_empty_reject (chunking_enabled : Bool) :
    TopicMessage.from_proto (.many []) chunking_enabled = .error emptyInputMsg := rfl

/-- C3: for every non-empty collection with distinct logical position
indices, the assembled message's `consensus_timestamp`, `running_hash` and
`sequence_number` equal exactly those of the record with the maximal
position index, regardless of input order. -/
theorem of_many_metadata_from_max (l : List ConsensusTopicResponse)
    (c : ConsensusTopicResponse) (hc : c ∈ l)
    (hmax : ∀ x ∈ l, x = c ∨ chunkNumber x < chunkNumber c) :
    ∃ m, TopicMessage.of_many l = some m ∧
      m.consensus_timestamp = to_datetime c.consensusTimestamp ∧
      m.running_hash = c.runningHash ∧
      m.sequence_number = c.sequenceNumber := by
  have hc' : c ∈ sortOf l := ((sortOf_perm l).mem_iff).mpr hc
  have hmax' : ∀ x ∈ sortOf l, x = c ∨ chunkNumber x < chunkNumber c :=
    fun x hx => hmax x (((sortOf_perm l).mem_iff).mp hx)
  have hlast := sorted_getLast?_eq (sortOf l) (sortOf_sorted l) c hc' hmax'
  exact ⟨_, of_many_eq hlast, rfl, rfl, rfl⟩

/-- Witness for C3: arrival order [2, 1, 3]; the metadata comes from the
index-3 chunk `demoC`. -/
theorem of_many_metadata_from_max_witness :
    ∃ m, TopicMessage.of_many [demoA, demoB, demoC] = some m ∧
      m.consensus_timestamp = to_datetime demoC.consensusTimestamp ∧
      m.running_hash = demoC.runningHash ∧
      m.sequence_number = demoC.sequenceNumber :=
  of_many_metadata_from_max [demoA, demoB, demoC] demoC (by decide) (by decide)

/-- C1: for every non-empty collection of records with pairwise-distinct
logical position indices and every permutation of its arrival order,
`of_many` produces the same contents, final metadata and transaction id. -/
theorem of_many_order_independent (l₁ l₂ : List ConsensusTopicResponse)
    (hne : l₁ ≠ []) (hperm : List.Perm l₁ l₂)
    (hnd : (l₁.map chunkNumber).Nodup) :
    ∃ m₁ m₂, TopicMessage.of_many l₁ = some m₁ ∧
      TopicMessage.of_many l₂ = some m₂ ∧
      m₁.contents = m₂.contents ∧
      m₁.consensus_timestamp = m₂.consensus_timestamp ∧
      m₁.running_hash = m₂.running_hash ∧
      m₁.sequence_number = m₂.sequence_number ∧
      m₁.transaction_id = m₂.transaction_id := by
  have hs : sortOf l₁ = sortOf l₂ := sortOf_eq_of_perm l₁ l₂ hperm hnd
  have heq : TopicMessage.of_many l₁ = TopicMessage.of_many l₂ := by
    unfold TopicMessage.of_many
    rw [hs]
  obtain ⟨last_r, hlast⟩ := of_many_isSome hne
  refine ⟨_, _, of_many_eq hlast, ?_, rfl, rfl, rfl, rfl, rfl⟩
  rw [← heq]
  exact of_many_eq hlast

/-- Witness for C1: the [2, 1, 3]-arrival scenario permuted, plus the
scenario result contents b"ABCDEF" with three chunks. -/
theorem of_many_order_independent_witness :
    (∃ m₁ m₂, TopicMessage.of_many [demoA, demoB, demoC] = some m₁ ∧
      TopicMessage.of_many [demoB, demoC, demoA] = some m₂ ∧
      m₁.contents = m₂.contents ∧
      m₁.consensus_timestamp = m₂.consensus_timestamp ∧
      m₁.running_hash = m₂.running_hash ∧
      m₁.sequence_number = m₂.sequence_number ∧
      m₁.transaction_id = m₂.transaction_id)
    ∧ (∃ m, TopicMessage.of_many [demoA, demoB, demoC] = some m ∧
      m.contents = [65, 66, 67, 68, 69, 70] ∧ m.chunks.length = 3) :=
  ⟨of_many_order_independent [demoA, demoB, demoC] [demoB, demoC, demoA]
      (by decide) (by decide) (by decide),
    ⟨_, rfl, by decide, by decide⟩⟩

/-- C4: if at least one chunk carries an initial-transaction descriptor,
the result's `transaction_id` is the formatted id of the carrier with the
lowest logical position index (later carriers are ignored); with no
carrier, `transaction_id` is absent. -/
theorem of_many_transaction_id_lowest (l : List ConsensusTopicResponse) :
    (∀ c ∈ l, carriesTx c = true →
      (∀ x ∈ l, carriesTx x = true → x = c ∨ chunkNumber c < chunkNumber x) →
      ∃ m, TopicMessage.of_many l = some m ∧ m.transaction_id = extractTxId c)
    ∧ ((∀ x ∈ l, carriesTx x = false) → l ≠ [] →
      ∃ m, TopicMessage.of_many l = some m ∧ m.transaction_id = none) := by
  constructor
  · intro c hc hcar hmin
    have hne : l ≠ [] := by
      intro h
      subst h
      exact absurd hc (List.not_mem_nil c)
    obtain ⟨last_r, hlast⟩ := of_many_isSome hne
    refine ⟨_, of_many_eq hlast, ?_⟩
    exact scanTx_first (sortOf l) (sortOf_sorted l) c (((sortOf_perm l).mem_iff).mpr hc)
      hcar (fun x hx hcx => hmin x (((sortOf_perm l).mem_iff).mp hx) hcx)
  · intro hnone hne
    obtain ⟨last_r, hlast⟩ := of_many_isSome hne
    refine ⟨_, of_many_eq hlast, ?_⟩
    exact scanTx_eq_none (sortOf l) (fun x hx => hnone x (((sortOf_perm l).mem_iff).mp hx))

/-- Witness for C4: two chunks where only the second carries shard 0,
realm 0, account 5, valid start (100, 200); the result's transaction id is
the string 0.0.5-100.200. -/
theorem of_many_transaction_id_lowest_witness :
    ∃ m, TopicMessage.of_many [demoT1, demoT2] = some m ∧
      m.transaction_id = some "0.0.5-100.200" := by
  obtain ⟨m, hm, ht⟩ := (of_many_transaction_id_lowest [demoT1, demoT2]).1 demoT2
    (by decide) (by decide) (by decide)
  refine ⟨m, hm, ?_⟩
  rw [ht]
  decide

/-- C2: for a single record not declaring a multi-chunk total greater
than 1, building from the one-element collection yields a message equal
field by field to the one built from the record directly, for both values
of `chunking_enabled`. -/
theorem from_proto_single_chunk_equiv (r : ConsensusTopicResponse)
    (chunking_enabled : Bool) (h : declaresMultiChunk r = false) :
    ∃ m₁ m₂, TopicMessage.from_proto (.many [r]) chunking_enabled = .ok m₁ ∧
      TopicMessage.from_proto (.single r) chunking_enabled = .ok m₂ ∧
      m₁.consensus_timestamp = m₂.consensus_timestamp ∧
      m₁.contents = m₂.contents ∧
      m₁.running_hash = m₂.running_hash ∧
      m₁.sequence_number = m₂.sequence_number ∧
      m₁.chunks = m₂.chunks ∧
      m₁.transaction_id = m₂.transaction_id := by
  refine ⟨TopicMessage.of_single r, TopicMessage.of_single r, ?_, ?_,
    rfl, rfl, rfl, rfl, rfl, rfl⟩
  · unfold TopicMessage.from_proto
    cases chunking_enabled with
    | false => simp
    | true => simp [of_many_singleton]
  · unfold TopicMessage.from_proto
    simp [h]

/-- Witness for C2: the single-chunk record `demoSingle` (declared total 1),
at both flag values. -/
theorem from_proto_single_chunk_equiv_witness :
    (∃ m₁ m₂, TopicMessage.from_proto (.many [demoSingle]) false = .ok m₁ ∧
      TopicMessage.from_proto (.single demoSingle) false = .ok m₂ ∧
      m₁.consensus_timestamp = m₂.consensus_timestamp ∧
      m₁.contents = m₂.contents ∧
      m₁.running_hash = m₂.running_hash ∧
      m₁.sequence_number = m₂.sequence_number ∧
      m₁.chunks = m₂.chunks ∧
      m₁.transaction_id = m₂.transaction_id)
    ∧ (∃ m₁ m₂, TopicMessage.from_proto (.many [demoSingle]) true = .ok m₁ ∧
      TopicMessage.from_proto (.single demoSingle) true = .ok m₂ ∧
      m₁.consensus_timestamp = m₂.consensus_timestamp ∧
      m₁.contents = m₂.contents ∧
      m₁.running_hash = m₂.running_hash ∧
      m₁.sequence_number = m₂.sequence_number ∧
      m₁.chunks = m₂.chunks ∧
      m₁.transaction_id = m₂.transaction_id) :=
  ⟨from_proto_single_chunk_equiv demoSingle false (by decide),
    from_proto_single_chunk_equiv demoSingle true (by decide)⟩

/-- C5: for messages produced by the single-chunk path and by the
multi-chunk path, the byte length of `contents` equals the sum of
`content_size` over the message's chunks. -/
theorem contents_length_conserved :
    (∀ r, (TopicMessage.of_single r).contents.length =
      sumContentSize (TopicMessage.of_single r).chunks)
    ∧ (∀ (l : List ConsensusTopicResponse) m, TopicMessage.of_many l = some m →
      m.contents.length = sumContentSize m.chunks) := by
  constructor
  · intro r
    simp [TopicMessage.of_single, sumContentSize, TopicMessageChunk.ofResponse]
  · intro l m hm
    have hne : l ≠ [] := by
      intro h
      subst h
      exact Option.noConfusion (of_many_nil ▸ hm)
    obtain ⟨last_r, hlast⟩ := of_many_isSome hne
    rw [of_many_eq hlast] at hm
    injection hm with hm'
    rw [← hm']
    simp only [payloadsJoin_length, sumContentSize_map]

/-- Witness for C5: the single record `demoB` and the pair
[demoA, demoB]. -/
theorem contents_length_conserved_witness :
    ((TopicMessage.of_single demoB).contents.length =
      sumContentSize (TopicMessage.of_single demoB).chunks)
    ∧ (∃ m, TopicMessage.of_many [demoA, demoB] = some m ∧
      m.contents.length = sumContentSize m.chunks) :=
  ⟨contents_length_conserved.1 demoB,
    ⟨_, rfl, contents_length_conserved.2 [demoA, demoB] _ rfl⟩⟩

/-- C6: the single-record entry point rejects with the ambiguous-shape
error exactly when chunking is enabled and the record declares a chunk
total greater than 1; otherwise it takes the single-chunk path with no
error. -/
theorem from_proto_ambiguous_shape (r : ConsensusTopicResponse)
    (chunking_enabled : Bool) :
    (TopicMessage.from_proto (.single r) chunking_enabled = .error ambiguousShapeMsg ↔
      chunking_enabled = true ∧ declaresMultiChunk r = true)
    ∧ (¬(chunking_enabled = true ∧ declaresMultiChunk r = true) →
      TopicMessage.from_proto (.single r) chunking_enabled =
        .ok (TopicMessage.of_single r)) := by
  simp only [TopicMessage.from_proto]
  by_cases h : (chunking_enabled && declaresMultiChunk r) = true
  · rw [if_pos h]
    simp only [Bool.and_eq_true] at h
    constructor
    · exact ⟨fun _ => h, fun _ => rfl⟩
    · intro hn
      exact absurd h hn
  · rw [if_neg h]
    simp only [Bool.and_eq_true] at h
    constructor
    · constructor
      · intro he
        exact Except.noConfusion he
      · intro hh
        exact absurd hh h
    · intro _
      rfl

/-- Witness for C6: the total-3 record `demoA` is rejected when chunking is
enabled and accepted when it is not. -/
theorem from_proto_ambiguous_shape_witness :
    (TopicMessage.from_proto (.single demoA) true = .error ambiguousShapeMsg)
    ∧ (TopicMessage.from_proto (.single demoA) false =
      .ok (TopicMessage.of_single demoA)) :=
  ⟨(from_proto_ambiguous_shape demoA true).1.mpr ⟨rfl, by decide⟩,
    (from_proto_ambiguous_shape demoA false).2 (by simp)⟩

/-- C9: collections routed to multi-chunk assembly by the factory are
non-empty, so the last-element access never fails (`of_many` never reaches
its error case under the factory's precondition) and every slice write of
the fill loop ends within the preallocated buffer size. -/
theorem of_many_access_in_bounds (rs : List ConsensusTopicResponse)
    (chunking_enabled : Bool) :
    (rs ≠ [] → TopicMessage.of_many rs ≠ none)
    ∧ (rs ≠ [] → ∃ m, TopicMessage.from_proto (.many rs) chunking_enabled = .ok m)
    ∧ (∀ pe ∈ writeBounds (sortOf rs) 0, pe.2 ≤ sumLen (sortOf rs)) := by
  refine ⟨?_, ?_, ?_⟩
  · intro hne
    obtain ⟨last_r, hlast⟩ := of_many_isSome hne
    rw [of_many_eq hlast]
    exact Option.noConfusion
  · intro hne
    cases rs with
    | nil => exact absurd rfl hne
    | cons r rest =>
      simp only [TopicMessage.from_proto]
      by_cases hb : (!chunking_enabled && rest.isEmpty) = true
      · rw [if_pos hb]
        exact ⟨_, rfl⟩
      · rw [if_neg hb]
        obtain ⟨last_r, hlast⟩ := of_many_isSome (List.cons_ne_nil r rest)
        rw [of_many_eq hlast]
        exact ⟨_, rfl⟩
  · intro pe hpe
    have h := writeBounds_le (sortOf rs) 0 pe hpe
    omega

/-- Witness for C9: the singleton collection [demoA] with chunking
enabled. -/
theorem of_many_access_in_bounds_witness :
    (TopicMessage.of_many [demoA] ≠ none)
    ∧ (∃ m, TopicMessage.from_proto (.many [demoA]) true = .ok m) :=
  ⟨(of_many_access_in_bounds [demoA] true).1 (by decide),
    (of_many_access_in_bounds [demoA] true).2.1 (by decide)⟩

/-- C10: the sort is stable, so chunks tied on the position index keep
arrival order: filtering at any key commutes with sorting, records without
chunk info take the default index 0, an all-tied collection concatenates
payloads in input order, and when the maximal index is tied the final
metadata comes from the last-arriving record among those tied at the
maximum. -/
theorem of_many_stable_ties :
    (∀ (l : List ConsensusTopicResponse) (k : Int),
      (sortOf l).filter (fun r => chunkNumber r == k) =
        l.filter (fun r => chunkNumber r == k))
    ∧ (∀ r : ConsensusTopicResponse, r.chunkInfo = none → chunkNumber r = 0)
    ∧ (∀ (l : List ConsensusTopicResponse) (k : Int) m,
        (∀ r ∈ l, chunkNumber r = k) → TopicMessage.of_many l = some m →
        m.contents = payloadsJoin l)
    ∧ (∀ (l : List ConsensusTopicResponse) (K : Int) m x,
        TopicMessage.of_many l = some m → (∀ r ∈ l, chunkNumber r ≤ K) →
        x ∈ l → chunkNumber x = K →
        ∃ y, (l.filter (fun r => chunkNumber r == K)).getLast? = some y ∧
          m.consensus_timestamp = to_datetime y.consensusTimestamp ∧
          m.running_hash = y.runningHash ∧
          m.sequence_number = y.sequenceNumber) := by
  refine ⟨sortOf_filter_stable, ?_, ?_, ?_⟩
  · intro r h
    simp [chunkNumber, h]
  · intro l k m hall hm
    have hs : List.Sorted respLE l := by
      apply List.pairwise_of_forall_mem_list
      intro a ha b hb
      unfold respLE
      rw [hall a ha, hall b hb]
    have hsort : sortOf l = l := by
      unfold sortOf
      exact hs.insertionSort_eq
    have hne : l ≠ [] := by
      intro h
      subst h
      exact Option.noConfusion (of_many_nil ▸ hm)
    obtain ⟨last_r, hlast⟩ := of_many_isSome hne
    rw [of_many_eq hlast] at hm
    injection hm with hm'
    rw [← hm', hsort]
  · intro l K m x hm hbound hx hxK
    have hne : l ≠ [] := by
      intro h
      subst h
      exact absurd hx (List.not_mem_nil x)
    obtain ⟨last_r, hlast⟩ := of_many_isSome hne
    have hfilter : (sortOf l).getLast? =
        ((sortOf l).filter (fun r => chunkNumber r == K)).getLast? :=
      sorted_getLast?_filter K (sortOf l) (sortOf_sorted l)
        (fun r hr => hbound r (((sortOf_perm l).mem_iff).mp hr)) x
        (((sortOf_perm l).mem_iff).mpr hx) hxK
    rw [sortOf_filter_stable l K] at hfilter
    refine ⟨last_r, by rw [← hfilter]; exact hlast, ?_⟩
    rw [of_many_eq hlast] at hm
    injection hm with hm'
    rw [← hm']
    exact ⟨rfl, rfl, rfl⟩

/-- Witness for C10: two records tied at index 1; the metadata comes from
the last-arriving `demoTieB`. -/
theorem of_many_stable_ties_witness :
    ∃ m, TopicMessage.of_many [demoTieA, demoTieB] = some m ∧
      ∃ y, ([demoTieA, demoTieB].filter (fun r => chunkNumber r == 1)).getLast? = some y ∧
        m.consensus_timestamp = to_datetime y.consensusTimestamp ∧
        m.running_hash = y.runningHash ∧
        m.sequence_number = y.sequenceNumber :=
  ⟨_, rfl, of_many_stable_ties.2.2.2 [demoTieA, demoTieB] 1 _ demoTieB rfl
    (by decide) (by decide) (by decide)⟩

/-- C8: the debug rendering follows the
`TopicMessage(consensus_timestamp=..., sequence_number=..., contents=...,
chunk_count=..., transaction_id=...)` template, showing at most the first
40 decoded characters of the contents (with a trailing ellipsis when
longer), where `chunk_count` is the number of chunks and decoding is
permissive: ASCII bytes decode to themselves, undecodable bytes are
substituted with U+FFFD, and decoding never fails on non-empty input. -/
theorem str_rendering_shape :
    (∀ m : TopicMessage, ∃ shown : List Char,
      TopicMessage.str m =
        "TopicMessage(consensus_timestamp=" ++ timestampRender m.consensus_timestamp
          ++ ", sequence_number=" ++ toString m.sequence_number
          ++ ", contents=" ++ squote ++ String.mk shown
          ++ (if (utf8DecodeReplace m.contents).length > 40 then "..." else "") ++ squote
          ++ ", chunk_count=" ++ toString m.chunks.length
          ++ ", transaction_id=" ++ (match m.transaction_id with
              | some s => s
              | none => "None") ++ ")"
        ∧ shown = ((utf8DecodeReplace m.contents).map Char.ofNat).take 40
        ∧ shown.length ≤ 40)
    ∧ (∀ b, b < 0x80 → utf8DecodeReplace [b] = [b])
    ∧ (∀ b, 0x80 ≤ b → b ≤ 0xFF → utf8DecodeReplace [b] = [replacementChar])
    ∧ (∀ bs : List Nat, bs ≠ [] → utf8DecodeReplace bs ≠ []) := by
  refine ⟨?_, ?_, ?_, utf8DecodeReplace_ne_nil⟩
  · intro m
    refine ⟨((utf8DecodeReplace m.contents).map Char.ofNat).take 40, ?_, rfl, ?_⟩
    · simp only [TopicMessage.str, List.length_map]
    · rw [List.length_take, List.length_map]
      omega
  · intro b hb
    unfold utf8DecodeReplace
    rw [if_pos (by omega)]
    rfl
  · intro b h1 h2
    unfold utf8DecodeReplace
    rw [if_neg (by omega)]
    split_ifs <;> rfl

/-- Witness for C8: a 42-byte contents ending in the undecodable byte 200,
plus concrete decodings. -/
theorem str_rendering_shape_witness :
    (∃ shown : List Char,
      TopicMessage.str demoStrMsg =
        "TopicMessage(consensus_timestamp="
          ++ timestampRender demoStrMsg.consensus_timestamp
          ++ ", sequence_number=" ++ toString demoStrMsg.sequence_number
          ++ ", contents=" ++ squote ++ String.mk shown
          ++ (if (utf8DecodeReplace demoStrMsg.contents).length > 40 then "..." else "")
          ++ squote
          ++ ", chunk_count=" ++ toString demoStrMsg.chunks.length
          ++ ", transaction_id=" ++ (match demoStrMsg.transaction_id with
              | some s => s
              | none => "None") ++ ")"
        ∧ shown = ((utf8DecodeReplace demoStrMsg.contents).map Char.ofNat).take 40
        ∧ shown.length ≤ 40)
    ∧ utf8DecodeReplace [65] = [65]
    ∧ utf8DecodeReplace [200] = [replacementChar] :=
  ⟨str_rendering_shape.1 demoStrMsg,
    str_rendering_shape.2.1 65 (by decide),
    str_rendering_shape.2.2.1 200 (by decide) (by decide)⟩
